import Mathlib

/-!
Verification of the classification-and-rewrite subsystem of the repository:
the JSON/date/join detectors (`mindsdb/utilities/json_detector.py`), the
native-query transformer (`mindsdb/utilities/native_query_transformer.py`)
and the SQL-parser tool shell
(`mindsdb/interfaces/skills/custom/text2sql/mindsdb_sql_tool.py`).

Queries are modelled as `List Char`.  Python regular-expression matching is
embedded by bespoke backtracking matchers that mirror each concrete pattern
of the source (the patterns use only literals, character classes, `+`, lazy
`+?`, optional groups and a final alternation, so each one unfolds into a
deterministic matcher plus the one backtracking point of the optional
group).  Character classes (`\w`, `\s`, `[a-zA-Z0-9_]`) and the
`upper`/`lower` case maps are modelled at the ASCII level, which is exact
for ASCII text.  Scanning functions that jump over a match are defined
structurally on a fuel argument; the top-level wrappers pass the input
length as fuel, which is exact because every match consumes at least one
character.
-/

def str (s : String) : List Char := s.data

/-- The backtick character (written by code to avoid a literal backtick). -/
def btick : Char := '\x60'

/-- ASCII model of the regex class `[a-zA-Z0-9_]`, also used for `\w`. -/
def isWordChar (c : Char) : Bool :=
  ('a' ≤ c && c ≤ 'z') || ('A' ≤ c && c ≤ 'Z') || ('0' ≤ c && c ≤ '9') || c = '_'

/-- ASCII model of Python whitespace (`\s`, `str.split`, `str.strip`). -/
def isSpaceChar (c : Char) : Bool :=
  c = ' ' || c = '\t' || c = '\n' || c = '\r' || c = '\x0b' || c = '\x0c'

/-- ASCII model of `str.lower`. -/
def lowerL (s : List Char) : List Char := s.map Char.toLower

/-- ASCII model of `str.upper`. -/
def upperL (s : List Char) : List Char := s.map Char.toUpper

/-- Test whether `s` starts with `p`. -/
def hasPrefB : List Char → List Char → Bool
  | [], _ => true
  | _ :: _, [] => false
  | p :: ps, c :: cs => p = c && hasPrefB ps cs

/-- Drop the literal `p` from the front of `s`, failing when absent. -/
def dropPref : List Char → List Char → Option (List Char)
  | [], s => some s
  | _ :: _, [] => none
  | p :: ps, c :: cs => if p = c then dropPref ps cs else none

/-- Model of the Python substring test `p in s`. -/
def hasSubB (p : List Char) : List Char → Bool
  | [] => hasPrefB p []
  | c :: rest => hasPrefB p (c :: rest) || hasSubB p rest

theorem hasPrefB_iff (p s : List Char) : hasPrefB p s = true ↔ ∃ r, s = p ++ r := by
  induction p generalizing s with
  | nil => simp [hasPrefB]
  | cons x ps ih =>
    cases s with
    | nil => simp [hasPrefB]
    | cons c cs =>
      simp only [hasPrefB, Bool.and_eq_true, decide_eq_true_eq, ih]
      constructor
      · rintro ⟨rfl, r, rfl⟩; exact ⟨r, rfl⟩
      · rintro ⟨r, h⟩
        injection h with h1 h2
        exact ⟨h1.symm, r, h2⟩

theorem hasSubB_iff (p s : List Char) : hasSubB p s = true ↔ ∃ a b, s = a ++ p ++ b := by
  induction s with
  | nil =>
    simp only [hasSubB, hasPrefB_iff]
    constructor
    · rintro ⟨r, h⟩
      exact ⟨[], r, by simpa using h⟩
    · rintro ⟨a, b, h⟩
      have h' : a ++ (p ++ b) = [] := by simpa using h.symm
      rcases List.append_eq_nil.mp h' with ⟨rfl, h2⟩
      rcases List.append_eq_nil.mp h2 with ⟨rfl, rfl⟩
      exact ⟨[], rfl⟩
  | cons c cs ih =>
    simp only [hasSubB, Bool.or_eq_true, hasPrefB_iff, ih]
    constructor
    · rintro (⟨r, h⟩ | ⟨a, b, rfl⟩)
      · exact ⟨[], r, by simpa using h⟩
      · exact ⟨c :: a, b, rfl⟩
    · rintro ⟨a, b, h⟩
      cases a with
      | nil => exact Or.inl ⟨b, by simpa using h⟩
      | cons a0 as =>
        injection h with h1 h2
        exact Or.inr ⟨as, b, h2⟩

theorem dropPref_sound {p s r : List Char} (h : dropPref p s = some r) : s = p ++ r := by
  induction p generalizing s with
  | nil => simpa [dropPref] using h
  | cons x ps ih =>
    cases s with
    | nil => simp [dropPref] at h
    | cons c cs =>
      by_cases hx : x = c
      · subst hx
        simp only [dropPref, if_pos rfl] at h
        simpa using ih h
      · simp [dropPref, hx] at h

theorem dropPref_complete (p r : List Char) : dropPref p (p ++ r) = some r := by
  induction p with
  | nil => simp [dropPref]
  | cons x ps ih => simp [dropPref, ih]

/-- A substring occurrence inside a suffix lifts to the whole list. -/
theorem hasSubB_of_suffix {p s t : List Char} (h : hasSubB p s = true)
    (hs : ∃ u, t = u ++ s) : hasSubB p t = true := by
  rcases hs with ⟨u, rfl⟩
  rcases (hasSubB_iff p s).mp h with ⟨a, b, rfl⟩
  exact (hasSubB_iff p _).mpr ⟨u ++ a, b, by simp⟩

/-- Maximal nonempty run of characters satisfying `p` (regex `X+` on a class). -/
def takeWhile1 (p : Char → Bool) (s : List Char) : Option (List Char × List Char) :=
  if (s.takeWhile p).isEmpty then none else some (s.takeWhile p, s.dropWhile p)

theorem dropWhile_head_false (p : Char → Bool) :
    ∀ (s : List Char) (c : Char) (cs : List Char),
      s.dropWhile p = c :: cs → p c = false := by
  intro s
  induction s with
  | nil => intro c cs h; simp [List.dropWhile] at h
  | cons a as ih =>
    intro c cs h
    rw [List.dropWhile] at h
    cases hpa : p a with
    | true => rw [hpa] at h; exact ih c cs h
    | false =>
      rw [hpa] at h
      injection h with h1 h2
      subst h1
      exact hpa

theorem takeWhile1_sound {p : Char → Bool} {s run rest : List Char}
    (h : takeWhile1 p s = some (run, rest)) :
    s = run ++ rest ∧ run ≠ [] ∧ (∀ c ∈ run, p c = true) ∧
      (∀ c cs, rest = c :: cs → p c = false) := by
  unfold takeWhile1 at h
  split at h
  · exact absurd h (by simp)
  · next hne =>
    injection h with h
    injection h with h1 h2
    subst h1; subst h2
    refine ⟨(List.takeWhile_append_dropWhile p s).symm, ?_, ?_, ?_⟩
    · intro hnil; rw [hnil] at hne; exact hne rfl
    · intro c hc; exact List.mem_takeWhile_imp hc
    · intro c cs hcs; exact dropWhile_head_false p s c cs hcs

/-- First `some` in a list of alternatives (models ordered regex alternation). -/
def firstSome? : List (Option α) → Option α
  | [] => none
  | some a :: _ => some a
  | none :: rest => firstSome? rest

theorem firstSome?_mem {l : List (Option α)} {a : α} (h : firstSome? l = some a) :
    some a ∈ l := by
  induction l with
  | nil => simp [firstSome?] at h
  | cons x rest ih =>
    cases x with
    | some b => simp only [firstSome?] at h; simp [h]
    | none => simp only [firstSome?] at h; simp [ih h]

/-! ## JSON operation detector (`analyze_json_operations`) -/

/-- The fixed operator table of `analyze_json_operations`, in the source's
(insertion) order, as `(operator, description)` pairs. -/
def json_operators : List (List Char × List Char) :=
  [(str "->>", str "JSON text extraction operator"),
   (str "->", str "JSON object/array extraction operator"),
   (str "#>", str "JSON path extraction operator"),
   (str "#>>", str "JSON path text extraction operator"),
   (str "@>", str "JSON containment operator"),
   (str "<@", str "JSON contained by operator"),
   (str "?", str "JSON key exists operator"),
   (str "?|", str "JSON any key exists operator"),
   (str "?&", str "JSON all keys exist operator")]

/-- The fixed function-name list of `analyze_json_operations`. -/
def json_functions : List (List Char) :=
  [str "json_array_elements",
   str "jsonb_array_elements",
   str "json_array_elements_text",
   str "json_extract_path",
   str "json_object",
   str "json_build_object",
   str "json_build_array",
   str "json_populate_record",
   str "json_typeof",
   str "json_strip_nulls",
   str "jsonb_set",
   str "jsonb_insert"]

structure JsonAnalysis where
  contains_json : Bool
  operators_found : List (List Char × List Char)
  functions_found : List (List Char)
  type_casts : List (List Char)
  details : List (List Char)
deriving DecidableEq

/-- Operator entries appended by the first loop of `analyze_json_operations`
(a literal substring test per table entry, in table order). -/
def json_ops_found (sql_query : List Char) : List (List Char × List Char) :=
  json_operators.filter (fun od => hasSubB od.1 sql_query)

/-- Function names appended by the second loop (case-insensitive substring). -/
def json_fns_found (sql_query : List Char) : List (List Char) :=
  json_functions.filter (fun f => hasSubB (lowerL f) (lowerL sql_query))

/-- The `type_casts` accumulated by the two cast checks. -/
def json_casts_found (sql_query : List Char) : List (List Char) :=
  (if hasSubB (str "::json") sql_query then [str "::json"] else []) ++
    (if hasSubB (str "::jsonb") sql_query then [str "::jsonb"] else [])

/-- Embedding of `analyze_json_operations`: operators are literal substring
tests in table order, functions are case-insensitive substring tests,
casts are the literals `::json` / `::jsonb`; the verdict is set as soon as
any of them fires. -/
def analyze_json_operations (sql_query : List Char) : JsonAnalysis :=
  { contains_json := !(json_ops_found sql_query).isEmpty ||
      !(json_fns_found sql_query).isEmpty || !(json_casts_found sql_query).isEmpty
    operators_found := json_ops_found sql_query
    functions_found := json_fns_found sql_query
    type_casts := json_casts_found sql_query
    details :=
      if !(json_ops_found sql_query).isEmpty || !(json_fns_found sql_query).isEmpty ||
          !(json_casts_found sql_query).isEmpty then
        (if !(json_ops_found sql_query).isEmpty then
          [str "Found JSON operators: " ++
            List.intercalate (str ", ") ((json_ops_found sql_query).map Prod.fst)]
         else []) ++
        (if !(json_fns_found sql_query).isEmpty then
          [str "Found JSON functions: " ++
            List.intercalate (str ", ") (json_fns_found sql_query)]
         else []) ++
        (if !(json_casts_found sql_query).isEmpty then
          [str "Found JSON type casts: " ++
            List.intercalate (str ", ") (json_casts_found sql_query)]
         else [])
      else [] }

/-- Embedding of `has_json`. -/
def has_json (sql_query : List Char) : Bool :=
  (analyze_json_operations sql_query).contains_json

theorem filter_ne_nil_iff (p : α → Bool) (l : List α) :
    l.filter p ≠ [] ↔ ∃ x ∈ l, p x = true := by
  induction l with
  | nil => simp
  | cons a as ih =>
    by_cases h : p a = true
    · simp [List.filter_cons, h]
    · simp only [List.filter_cons, h, if_false, ih]
      simp only [Bool.not_eq_true] at h
      simp [h]

theorem isEmpty_bnot_iff (l : List α) : (!l.isEmpty) = true ↔ l ≠ [] := by
  cases l <;> simp

theorem json_operators_found_mem (q : List Char) :
    ∀ od ∈ json_operators, hasSubB od.1 q = true →
      od ∈ (analyze_json_operations q).operators_found := by
  intro od hmem hsub
  simp only [analyze_json_operations, json_ops_found]
  exact List.mem_filter.mpr ⟨hmem, hsub⟩

/-- C5: the JSON verdict holds iff some operator, function (case-insensitively)
or `::json` / `::jsonb` cast occurs in the text, and every operator of the
table occurring in the text is listed in `operators_found`. -/
theorem analyze_json_operations_spec (q : List Char) :
    ((analyze_json_operations q).contains_json = true ↔
      ((∃ od ∈ json_operators, hasSubB od.1 q = true) ∨
       (∃ f ∈ json_functions, hasSubB (lowerL f) (lowerL q) = true) ∨
       hasSubB (str "::json") q = true ∨ hasSubB (str "::jsonb") q = true)) ∧
    (∀ od ∈ json_operators, hasSubB od.1 q = true →
      od ∈ (analyze_json_operations q).operators_found) := by
  have hcasts : json_casts_found q ≠ [] ↔
      (hasSubB (str "::json") q = true ∨ hasSubB (str "::jsonb") q = true) := by
    unfold json_casts_found
    by_cases h1 : hasSubB (str "::json") q = true <;>
      by_cases h2 : hasSubB (str "::jsonb") q = true <;> simp [h1, h2]
  constructor
  · simp only [analyze_json_operations, Bool.or_eq_true, isEmpty_bnot_iff,
      json_ops_found, json_fns_found, filter_ne_nil_iff]
    constructor
    · rintro ((h | h) | h)
      · exact Or.inl h
      · exact Or.inr (Or.inl h)
      · rcases hcasts.mp h with h' | h'
        · exact Or.inr (Or.inr (Or.inl h'))
        · exact Or.inr (Or.inr (Or.inr h'))
    · rintro (h | h | h | h)
      · exact Or.inl (Or.inl h)
      · exact Or.inl (Or.inr h)
      · exact Or.inr (hcasts.mpr (Or.inl h))
      · exact Or.inr (hcasts.mpr (Or.inr h))
  · exact json_operators_found_mem q

/-- Witness for C5 at a concrete query containing `->`. -/
theorem analyze_json_operations_spec_witness :
    (str "->", str "JSON object/array extraction operator") ∈
      (analyze_json_operations (str "SELECT a -> b FROM t")).operators_found :=
  (analyze_json_operations_spec (str "SELECT a -> b FROM t")).2
    (str "->", str "JSON object/array extraction operator")
    (by decide) (by decide)

/-- C10: any text containing `->>` yields both the `->` and the `->>`
operator entries in `operators_found`, since operator detection is plain
substring containment and `->` is a substring of `->>`. -/
theorem operators_found_arrow_pair (q : List Char)
    (h : hasSubB (str "->>") q = true) :
    (str "->>", str "JSON text extraction operator") ∈
        (analyze_json_operations q).operators_found ∧
      (str "->", str "JSON object/array extraction operator") ∈
        (analyze_json_operations q).operators_found := by
  have harrow : hasSubB (str "->") q = true := by
    rcases (hasSubB_iff _ q).mp h with ⟨a, b, rfl⟩
    exact (hasSubB_iff _ _).mpr ⟨a, '>' :: b, by simp [str]⟩
  exact ⟨json_operators_found_mem q _ (by simp [json_operators]) h,
    json_operators_found_mem q _ (by simp [json_operators]) harrow⟩

/-- Witness for C10 at a concrete query. -/
theorem operators_found_arrow_pair_witness :
    (str "->>", str "JSON text extraction operator") ∈
        (analyze_json_operations (str "SELECT x->>'k' FROM t")).operators_found ∧
      (str "->", str "JSON object/array extraction operator") ∈
        (analyze_json_operations (str "SELECT x->>'k' FROM t")).operators_found :=
  operators_found_arrow_pair (str "SELECT x->>'k' FROM t") (by decide)

/-! ## Markdown-fence cleaning (`MindsDBSQLParserTool._clean_query`) -/

/-- Embedding of `re.sub(r'X(sql)?', '', query)` where `X` is three backticks:
scan left to right; at a match remove three backticks plus a greedily
matched `sql`; otherwise keep the character. -/
def _clean_query : List Char → List Char
  | '\x60' :: '\x60' :: '\x60' :: 's' :: 'q' :: 'l' :: rest => _clean_query rest
  | '\x60' :: '\x60' :: '\x60' :: rest => _clean_query rest
  | c :: rest => c :: _clean_query rest
  | [] => []

/-- The three-backtick fence pattern. -/
def fence : List Char := [btick, btick, btick]

/-- Number of leading backticks. -/
def leadTicks (s : List Char) : Nat := (s.takeWhile (fun c => c = btick)).length

theorem leadTicks_cons (c : Char) (r : List Char) :
    leadTicks (c :: r) = if c = btick then leadTicks r + 1 else 0 := by
  by_cases h : c = btick <;> simp [leadTicks, List.takeWhile_cons, h]

theorem leadTicks_of_pref2 {x : List Char}
    (h : hasPrefB [btick, btick] x = true) : 2 ≤ leadTicks x := by
  rcases (hasPrefB_iff _ x).mp h with ⟨r, rfl⟩
  simp [leadTicks_cons]

theorem hasPrefB_fence (c : Char) (x : List Char) :
    hasPrefB fence (c :: x) = ((btick = c) && hasPrefB [btick, btick] x) := by
  simp [fence, hasPrefB]

theorem leadTicks_le_one_of_not_two {rest : List Char}
    (h : ∀ r1 : List Char, rest = btick :: btick :: r1 → False) :
    leadTicks rest ≤ 1 := by
  cases rest with
  | nil => simp [leadTicks]
  | cons a as =>
    by_cases ha : a = btick
    · subst ha
      cases as with
      | nil => simp [leadTicks_cons, leadTicks]
      | cons b bs =>
        by_cases hb : b = btick
        · subst hb; exact absurd rfl (h bs)
        · simp [leadTicks_cons, hb]
    · simp [leadTicks_cons, ha]

/-- After one cleaning pass no three-backtick fence remains, and the number
of leading backticks does not grow. -/
theorem clean_no_fence (s : List Char) :
    hasSubB fence (_clean_query s) = false ∧
      leadTicks (_clean_query s) ≤ min (leadTicks s) 2 := by
  induction s using _clean_query.induct with
  | case1 rest ih =>
    rw [_clean_query.eq_1]
    refine ⟨ih.1, ?_⟩
    have h2 := ih.2
    have hlt : leadTicks ('\x60' :: '\x60' :: '\x60' :: 's' :: 'q' :: 'l' :: rest) = 3 := by
      simp [leadTicks_cons, btick, leadTicks]
    rw [hlt]
    omega
  | case2 rest h ih =>
    rw [_clean_query.eq_2 rest h]
    refine ⟨ih.1, ?_⟩
    have h2 := ih.2
    have hlt : leadTicks ('\x60' :: '\x60' :: '\x60' :: rest) = 3 + leadTicks rest := by
      simp [leadTicks_cons, btick]
      omega
    rw [hlt]
    omega
  | case3 c rest h1 h2 ih =>
    rw [_clean_query.eq_3 c rest h1 h2]
    by_cases hc : c = btick
    · subst hc
      have hrest1 : leadTicks rest ≤ 1 :=
        leadTicks_le_one_of_not_two (fun r1 hr => h2 r1 rfl (by rw [hr]; rfl))
      have hclean1 : leadTicks (_clean_query rest) ≤ 1 := by
        have := ih.2
        omega
      constructor
      · have hpref : hasPrefB fence (btick :: _clean_query rest) = false := by
          rw [hasPrefB_fence]
          cases hp : hasPrefB [btick, btick] (_clean_query rest) with
          | false => simp
          | true => exact absurd (leadTicks_of_pref2 hp) (by omega)
        simp only [hasSubB, hpref, ih.1, Bool.or_false]
      · rw [leadTicks_cons, if_pos rfl, leadTicks_cons, if_pos rfl]
        have := ih.2
        omega
    · constructor
      · have hcb : btick ≠ c := fun h => hc h.symm
        have hpref : hasPrefB fence (c :: _clean_query rest) = false := by
          rw [hasPrefB_fence]
          simp [hcb]
        simp only [hasSubB, hpref, ih.1, Bool.or_false]
      · rw [leadTicks_cons, if_neg hc, leadTicks_cons, if_neg hc]
        omega
  | case4 => simp [_clean_query, leadTicks, hasSubB, hasPrefB, fence]

/-- A text with no three-backtick fence is a fixed point of the cleaner. -/
theorem clean_fixed_of_no_fence (s : List Char) (h : hasSubB fence s = false) :
    _clean_query s = s := by
  induction s using _clean_query.induct with
  | case1 rest ih =>
    exfalso
    have : hasPrefB fence ('\x60' :: '\x60' :: '\x60' :: 's' :: 'q' :: 'l' :: rest) = true := by
      simp [fence, hasPrefB, btick]
    simp [hasSubB, this] at h
  | case2 rest hns ih =>
    exfalso
    have : hasPrefB fence ('\x60' :: '\x60' :: '\x60' :: rest) = true := by
      simp [fence, hasPrefB, btick]
    simp [hasSubB, this] at h
  | case3 c rest h1 h2 ih =>
    rw [_clean_query.eq_3 c rest h1 h2]
    have htail : hasSubB fence rest = false := by
      rw [hasSubB] at h
      exact (Bool.or_eq_false_iff.mp h).2
    rw [ih htail]
  | case4 => rfl

/-- C3: the markdown-fence cleaning is idempotent. -/
theorem _clean_query_idempotent (x : List Char) :
    _clean_query (_clean_query x) = _clean_query x :=
  clean_fixed_of_no_fence (_clean_query x) (clean_no_fence x).1

/-! ## Native query transformer (`transform_query`) -/

/-- Accumulator pass behind `str.split()` (split on whitespace runs,
ignoring leading/trailing whitespace). -/
def pySplitAux : List Char → List Char → List (List Char)
  | [], acc => if acc.isEmpty then [] else [acc.reverse]
  | c :: rest, acc =>
    if isSpaceChar c then
      if acc.isEmpty then pySplitAux rest [] else acc.reverse :: pySplitAux rest []
    else pySplitAux rest (c :: acc)

/-- Model of Python `s.split()`. -/
def pySplit (s : List Char) : List (List Char) := pySplitAux s []

/-- Model of `' '.join(s.split())`: whitespace collapsing, case preserving. -/
def collapseWs (s : List Char) : List Char := List.intercalate [' '] (pySplit s)

/-- Head match of the regex `FROM ([a-zA-Z0-9_]+)\.([a-zA-Z0-9_]+)`; returns
the two captured groups and the rest after the match.  Both `+` runs are
greedy and deterministic because `.` is not a word character. -/
def fromMatchAt (s : List Char) : Option ((List Char × List Char) × List Char) := do
  let r1 ← dropPref (str "FROM ") s
  let (w1, r2) ← takeWhile1 isWordChar r1
  let r3 ← dropPref (str ".") r2
  let (w2, r4) ← takeWhile1 isWordChar r3
  pure ((w1, w2), r4)

/-- Fuel-indexed scan of non-overlapping leftmost matches (`re.findall` /
`re.finditer` order): try the matcher at each position, jumping over a
match.  Every matcher used consumes at least one character, so the input
length is sufficient fuel. -/
def reFindallF (m : List Char → Option (γ × List Char)) : Nat → List Char → List γ
  | 0, _ => []
  | _ + 1, [] => []
  | fuel + 1, c :: rest =>
    match m (c :: rest) with
    | some (g, r) => g :: reFindallF m fuel r
    | none => reFindallF m fuel rest

/-- Model of `re.findall` for the transformer pattern. -/
def fromFindall (s : List Char) : List (List Char × List Char) :=
  reFindallF fromMatchAt s.length s

/-- Head match of the substitution pattern `f"{database_name}\.([a-zA-Z0-9_]+)"`. -/
def dbMatchAt (db : List Char) (s : List Char) : Option (List Char × List Char) := do
  let r1 ← dropPref (db ++ ['.']) s
  let (w, r2) ← takeWhile1 isWordChar r1
  pure (w, r2)

/-- Fuel-indexed pass of `re.sub(f"{db}\.([a-zA-Z0-9_]+)", r"\1", s)`:
each match of `db.<word-run>` is replaced by the bare word run. -/
def stripQualF (db : List Char) : Nat → List Char → List Char
  | 0, _ => []
  | _ + 1, [] => []
  | fuel + 1, c :: rest =>
    match dbMatchAt db (c :: rest) with
    | some (w, r) => w ++ stripQualF db fuel r
    | none => c :: stripQualF db fuel rest

def stripQual (db s : List Char) : List Char := stripQualF db s.length s

/-- Fuel-indexed pass of Python `s.replace(pat, repl)` (left-to-right,
non-overlapping; the replacement is not rescanned).  The guard rejects an
empty-pattern match; both patterns used are nonempty. -/
def pyReplaceF (pat repl : List Char) : Nat → List Char → List Char
  | 0, _ => []
  | _ + 1, [] => []
  | fuel + 1, c :: rest =>
    match dropPref pat (c :: rest) with
    | some r =>
      if r.length < rest.length + 1 then repl ++ pyReplaceF pat repl fuel r
      else c :: pyReplaceF pat repl fuel rest
    | none => c :: pyReplaceF pat repl fuel rest

def pyReplace (pat repl s : List Char) : List Char := pyReplaceF pat repl s.length s

/-- Embedding of `transform_query`: collapse whitespace, look for the first
`FROM <identifier>.<identifier>` match; when absent return the collapsed
text unchanged, otherwise strip the first database's qualifier everywhere,
drop triple-quote markers and semicolons, and wrap. -/
def transform_query (sql_query : List Char) : List Char :=
  match fromFindall (collapseWs sql_query) with
  | [] => collapseWs sql_query
  | (database_name, _) :: _ =>
    str "SELECT * FROM " ++ database_name ++ str "(" ++
      pyReplace (str ";") []
        (pyReplace (str "\"\"\"") []
          (stripQual database_name (collapseWs sql_query))) ++ str ");"

/-- C4: the transformer rewrites the scenario query exactly as specified. -/
theorem transform_query_scenario :
    transform_query (str "SELECT * FROM shop.orders WHERE id = 1") =
      str "SELECT * FROM shop(SELECT * FROM orders WHERE id = 1);" := by decide

/-- C8: when the `FROM <identifier>.<identifier>` pattern does not match the
whitespace-collapsed input, the transformer returns the collapsed input
unchanged. -/
theorem transform_query_no_match (t : List Char)
    (h : fromFindall (collapseWs t) = []) : transform_query t = collapseWs t := by
  unfold transform_query
  rw [h]

/-- Witness for C8 at `"SELECT 1"` (whose collapse is itself). -/
theorem transform_query_no_match_witness :
    fromFindall (collapseWs (str "SELECT 1")) = [] ∧
      transform_query (str "SELECT 1") = str "SELECT 1" :=
  ⟨by decide, (transform_query_no_match (str "SELECT 1") (by decide)).trans (by decide)⟩

theorem reFindallF_head {γ : Type} {m : List Char → Option (γ × List Char)} :
    ∀ {fuel : Nat} {s : List Char} {g : γ} {gs : List γ},
      reFindallF m fuel s = g :: gs → ∃ s' r, m s' = some (g, r) := by
  intro fuel
  induction fuel with
  | zero => intro s g gs h; simp [reFindallF] at h
  | succ n ih =>
    intro s g gs h
    cases s with
    | nil => simp [reFindallF] at h
    | cons c rest =>
      rw [reFindallF] at h
      cases hm : m (c :: rest) with
      | some p =>
        rw [hm] at h
        injection h with h1 h2
        exact ⟨c :: rest, p.2, by rw [hm, ← h1]⟩
      | none =>
        rw [hm] at h
        exact ih h

theorem fromMatchAt_sound {s : List Char} {w1 w2 r : List Char}
    (h : fromMatchAt s = some ((w1, w2), r)) :
    s = str "FROM " ++ w1 ++ '.' :: (w2 ++ r) ∧ w1 ≠ [] ∧ w2 ≠ [] ∧
      (∀ c ∈ w1, isWordChar c = true) ∧ (∀ c ∈ w2, isWordChar c = true) := by
  simp only [fromMatchAt, bind, Option.bind_eq_some, Option.pure_def,
    Option.some.injEq] at h
  rcases h with ⟨r1, h1, ⟨v1, rv1⟩, h2, r3, h3, ⟨v2, rv2⟩, h4, h5⟩
  dsimp only at h3 h5
  obtain ⟨hs1, -, hw1, -⟩ := takeWhile1_sound h2
  obtain ⟨hs2, hne2, hw2, -⟩ := takeWhile1_sound h4
  have e1 := dropPref_sound h1
  have e3 := dropPref_sound h3
  injection h5 with h5a h5b
  injection h5a with h5c h5d
  subst h5b h5c h5d
  constructor
  · rw [e1, hs1, e3, hs2]
    simp [str]
  · obtain ⟨-, hne1, -, -⟩ := takeWhile1_sound h2
    exact ⟨hne1, hne2, hw1, hw2⟩

theorem pyReplaceF_semi_not_mem : ∀ (fuel : Nat) (s : List Char),
    ';' ∉ pyReplaceF (str ";") [] fuel s := by
  intro fuel
  induction fuel with
  | zero => intro s; simp [pyReplaceF]
  | succ n ih =>
    intro s
    cases s with
    | nil => simp [pyReplaceF]
    | cons c rest =>
      rw [pyReplaceF]
      by_cases hc : (';' : Char) = c
      · subst hc
        have hd : dropPref (str ";") (';' :: rest) = some rest := by
          simp [str, dropPref]
        rw [hd]
        simp only [Nat.lt_succ_self, if_pos, List.nil_append]
        exact ih rest
      · have hd : dropPref (str ";") (c :: rest) = none := by
          simp [str, dropPref, hc]
        rw [hd]
        intro hmem
        rcases List.mem_cons.mp hmem with h | h
        · exact hc h
        · exact ih rest h

theorem getLast?_append_pair (x : List Char) (a b : Char) :
    (x ++ [a, b]).getLast? = some b := by
  rw [show x ++ [a, b] = (x ++ [a]) ++ [b] by simp]
  exact List.getLast?_concat _

/-- C9: whenever the `FROM <identifier>.<identifier>` pattern matches, the
transformer output contains exactly one semicolon, and it is the final
character (body semicolons are removed before the wrapper appends `;`). -/
theorem transform_query_single_semicolon (t db w : List Char)
    (rest : List (List Char × List Char))
    (h : fromFindall (collapseWs t) = (db, w) :: rest) :
    List.count ';' (transform_query t) = 1 ∧
      (transform_query t).getLast? = some ';' := by
  have hout : transform_query t =
      str "SELECT * FROM " ++ db ++ str "(" ++
        pyReplace (str ";") []
          (pyReplace (str "\"\"\"") []
            (stripQual db (collapseWs t))) ++ str ");" := by
    unfold transform_query
    rw [h]
  obtain ⟨s', r', hm⟩ := reFindallF_head h
  obtain ⟨-, -, -, hw1, -⟩ := fromMatchAt_sound hm
  have hdb : ';' ∉ db := by
    intro hmem
    have := hw1 ';' hmem
    simp [isWordChar] at this
  have hbody : ';' ∉ pyReplace (str ";") []
      (pyReplace (str "\"\"\"") [] (stripQual db (collapseWs t))) :=
    pyReplaceF_semi_not_mem _ _
  constructor
  · rw [hout]
    simp only [List.count_append]
    rw [List.count_eq_zero.mpr hdb, List.count_eq_zero.mpr hbody]
    decide
  · rw [hout]
    rw [show str "SELECT * FROM " ++ db ++ str "(" ++
        pyReplace (str ";") []
          (pyReplace (str "\"\"\"") []
            (stripQual db (collapseWs t))) ++ str ");" =
      (str "SELECT * FROM " ++ db ++ str "(" ++
        pyReplace (str ";") []
          (pyReplace (str "\"\"\"") []
            (stripQual db (collapseWs t)))) ++ [')', ';'] by simp [str]]
    exact getLast?_append_pair _ ')' ';'

/-- Witness for C9 at a concrete matching query. -/
theorem transform_query_single_semicolon_witness :
    fromFindall (collapseWs (str "SELECT * FROM shop.orders WHERE id = 1")) =
        [(str "shop", str "orders")] ∧
      List.count ';' (transform_query (str "SELECT * FROM shop.orders WHERE id = 1")) = 1 ∧
      (transform_query (str "SELECT * FROM shop.orders WHERE id = 1")).getLast? = some ';' :=
  ⟨by decide,
   transform_query_single_semicolon (str "SELECT * FROM shop.orders WHERE id = 1")
     (str "shop") (str "orders") [] (by decide)⟩

theorem dbMatchAt_sound {db s w r : List Char} (h : dbMatchAt db s = some (w, r)) :
    s = db ++ '.' :: (w ++ r) ∧ w ≠ [] ∧ (∀ c ∈ w, isWordChar c = true) ∧
      (∀ c cs, r = c :: cs → isWordChar c = false) := by
  simp only [dbMatchAt, bind, Option.bind_eq_some, Option.pure_def,
    Option.some.injEq] at h
  rcases h with ⟨r1, h1, ⟨v, rv⟩, h2, h3⟩
  dsimp only at h3
  obtain ⟨hs, hne, hword, hmax⟩ := takeWhile1_sound h2
  have e1 := dropPref_sound h1
  injection h3 with h3a h3b
  subst h3a h3b
  refine ⟨?_, hne, hword, hmax⟩
  rw [e1, hs]
  simp

theorem getLast?_append_right (A : List Char) :
    ∀ (B : List Char), B ≠ [] → (A ++ B).getLast? = B.getLast? := by
  induction A with
  | nil => intro B _; rfl
  | cons a A' ih =>
    intro B hB
    have hAB : A' ++ B ≠ [] := by
      intro hnil
      exact hB (List.append_eq_nil.mp hnil).2
    cases hABc : A' ++ B with
    | nil => exact absurd hABc hAB
    | cons x xs =>
      calc ((a :: A') ++ B).getLast? = (a :: (A' ++ B)).getLast? := by simp
        _ = (a :: x :: xs).getLast? := by rw [hABc]
        _ = (x :: xs).getLast? := List.getLast?_cons_cons
        _ = (A' ++ B).getLast? := by rw [hABc]
        _ = B.getLast? := ih B hB

theorem getLast?_mem : ∀ (l : List Char) (x : Char), l.getLast? = some x → x ∈ l := by
  intro l
  induction l with
  | nil => intro x h; simp at h
  | cons a l' ih =>
    intro x h
    cases l' with
    | nil =>
      simp only [List.getLast?_singleton, Option.some.injEq] at h
      simp [h]
    | cons b l'' =>
      rw [List.getLast?_cons_cons] at h
      exact List.mem_cons_of_mem a (ih x h)

/-- Counterexample for C7 as stated: with first database `shop`, the
qualified reference to the distinct database `myshop` is not left
unchanged — the substitution pattern `shop\.(\w+)` also matches inside
`myshop.b`, so `myshop.b` is rewritten to `myb`. -/
theorem transform_query_other_db_clobbered :
    transform_query (str "SELECT * FROM shop.a, myshop.b WHERE c = 1") =
        str "SELECT * FROM shop(SELECT * FROM a, myb WHERE c = 1);" ∧
      hasSubB (str "myshop")
        (transform_query (str "SELECT * FROM shop.a, myshop.b WHERE c = 1")) = false := by
  decide

/-- The character right after a qualified reference (when any) neither
continues a word run nor starts a dot. -/
def tailStop (tail : List Char) : Prop :=
  tail = [] ∨ ∃ c cs, tail = c :: cs ∧ isWordChar c = false ∧ c ≠ '.'

theorem stripQualF_copy_word (d : List Char)
    (hd_word : ∀ c ∈ d, isWordChar c = true) :
    ∀ (fuel : Nat) (w' tail : List Char), (w' ++ tail).length ≤ fuel →
      (∀ c ∈ w', isWordChar c = true) → tailStop tail →
      ∃ out, stripQualF d fuel (w' ++ tail) = w' ++ out := by
  intro fuel
  induction fuel with
  | zero =>
    intro w' tail hlen hw ht
    cases w' with
    | nil => exact ⟨stripQualF d 0 tail, rfl⟩
    | cons c w'' => simp only [List.cons_append, List.length_cons] at hlen; omega
  | succ f ih =>
    intro w' tail hlen hw ht
    cases w' with
    | nil => exact ⟨stripQualF d (f + 1) tail, rfl⟩
    | cons c w'' =>
      rw [List.cons_append, stripQualF]
      cases hm : dbMatchAt d (c :: (w'' ++ tail)) with
      | some p =>
        exfalso
        obtain ⟨wm, r⟩ := p
        obtain ⟨hs, hwm_ne, hwm_word, hmax⟩ := dbMatchAt_sound hm
        have hs' : (c :: w'') ++ tail = d ++ ('.' :: (wm ++ r)) := by
          simpa using hs
        rcases List.append_eq_append_iff.mp hs' with ⟨a', ha1, ha2⟩ | ⟨c', hc1, hc2⟩
        · rcases ht with rfl | ⟨c0, cs0, heq, hnw, hnd⟩
          · exact absurd ha2.symm (by simp)
          · cases a' with
            | nil =>
              rw [heq] at ha2
              simp only [List.nil_append] at ha2
              injection ha2 with h1 h2
              exact hnd h1
            | cons ac as =>
              rw [heq] at ha2
              simp only [List.cons_append] at ha2
              injection ha2 with h1 h2
              have hacd : ac ∈ d := by
                rw [ha1]
                exact List.mem_append_right _ (List.mem_cons_self ac as)
              rw [h1] at hnw
              rw [hd_word ac hacd] at hnw
              simp at hnw
        · cases c' with
          | nil =>
            simp only [List.nil_append] at hc2
            rcases ht with rfl | ⟨c0, cs0, heq, hnw, hnd⟩
            · exact absurd hc2 (by simp)
            · rw [heq] at hc2
              injection hc2 with h1 h2
              exact hnd h1.symm
          | cons cc cs =>
            simp only [List.cons_append] at hc2
            injection hc2 with h1 h2
            have hcc : cc ∈ c :: w'' := by
              rw [hc1]
              exact List.mem_append_right _ (List.mem_cons_self cc cs)
            have hccw := hw cc hcc
            rw [← h1] at hccw
            exact absurd hccw (by decide)
      | none =>
        have hlen' : (w'' ++ tail).length ≤ f := by
          simp only [List.cons_append, List.length_cons] at hlen
          simp only [List.length_append] at hlen ⊢
          omega
        obtain ⟨out, hout⟩ :=
          ih w'' tail hlen' (fun x hx => hw x (List.mem_cons_of_mem _ hx)) ht
        exact ⟨out, by rw [hout]; simp⟩

theorem stripQualF_copy_region (d e w : List Char)
    (hd_word : ∀ c ∈ d, isWordChar c = true) (hd_ne : d ≠ [])
    (he_word : ∀ c ∈ e, isWordChar c = true)
    (hw_word : ∀ c ∈ w, isWordChar c = true)
    (hnds : ¬ ∃ k, e = k ++ d) :
    ∀ (e' : List Char), (∃ k, e = k ++ e') →
      ∀ (fuel : Nat) (tail : List Char),
        (e' ++ '.' :: (w ++ tail)).length ≤ fuel → tailStop tail →
        ∃ out, stripQualF d fuel (e' ++ '.' :: (w ++ tail)) = e' ++ '.' :: w ++ out := by
  intro e'
  induction e' with
  | nil =>
    intro hsuf fuel tail hlen ht
    cases fuel with
    | zero => simp at hlen
    | succ f =>
      simp only [List.nil_append] at hlen ⊢
      rw [stripQualF]
      cases hm : dbMatchAt d ('.' :: (w ++ tail)) with
      | some p =>
        exfalso
        obtain ⟨wm, r⟩ := p
        obtain ⟨hs, -, -, -⟩ := dbMatchAt_sound hm
        cases d with
        | nil => exact hd_ne rfl
        | cons dh dt =>
          simp only [List.cons_append] at hs
          injection hs with h1 h2
          have := hd_word dh (List.mem_cons_self dh dt)
          rw [← h1] at this
          exact absurd this (by decide)
      | none =>
        have hlen' : (w ++ tail).length ≤ f := by
          simp only [List.length_cons] at hlen
          omega
        obtain ⟨out, hout⟩ := stripQualF_copy_word d hd_word f w tail hlen' hw_word ht
        exact ⟨out, by rw [hout]; simp⟩
  | cons c e'' ih =>
    intro hsuf fuel tail hlen ht
    cases fuel with
    | zero => simp at hlen
    | succ f =>
      rw [List.cons_append, stripQualF]
      cases hm : dbMatchAt d (c :: (e'' ++ '.' :: (w ++ tail))) with
      | some p =>
        exfalso
        obtain ⟨wm, r⟩ := p
        obtain ⟨hs, -, hwm_word, -⟩ := dbMatchAt_sound hm
        have he'_word : ∀ x ∈ c :: e'', isWordChar x = true := by
          intro x hx
          rcases hsuf with ⟨k, hk⟩
          exact he_word x (by rw [hk]; exact List.mem_append_right _ hx)
        have hs' : (c :: e'') ++ ('.' :: (w ++ tail)) = d ++ ('.' :: (wm ++ r)) := by
          simpa using hs
        rcases List.append_eq_append_iff.mp hs' with ⟨a', ha1, ha2⟩ | ⟨c', hc1, hc2⟩
        · cases a' with
          | nil =>
            simp only [List.append_nil] at ha1
            rcases hsuf with ⟨k, hk⟩
            exact hnds ⟨k, by rw [hk, ha1]⟩
          | cons ac as =>
            simp only [List.cons_append] at ha2
            injection ha2 with h1 h2
            have hacd : ac ∈ d := by
              rw [ha1]
              exact List.mem_append_right _ (List.mem_cons_self ac as)
            have := hd_word ac hacd
            rw [← h1] at this
            exact absurd this (by decide)
        · cases c' with
          | nil =>
            simp only [List.append_nil] at hc1
            rcases hsuf with ⟨k, hk⟩
            exact hnds ⟨k, by rw [hk, ← hc1]⟩
          | cons cc cs =>
            simp only [List.cons_append] at hc2
            injection hc2 with h1 h2
            have hcce : cc ∈ c :: e'' := by
              rw [hc1]
              exact List.mem_append_right _ (List.mem_cons_self cc cs)
            have := he'_word cc hcce
            rw [← h1] at this
            exact absurd this (by decide)
      | none =>
        have hlen' : (e'' ++ '.' :: (w ++ tail)).length ≤ f := by
          simp only [List.cons_append, List.length_cons] at hlen
          omega
        rcases hsuf with ⟨k, hk⟩
        obtain ⟨out, hout⟩ :=
          ih ⟨k ++ [c], by rw [hk]; simp⟩ f tail hlen' ht
        exact ⟨out, by rw [hout]; simp⟩

theorem stripQualF_preserves (d e w : List Char)
    (hd_word : ∀ c ∈ d, isWordChar c = true) (hd_ne : d ≠ [])
    (he_word : ∀ c ∈ e, isWordChar c = true) (he_ne : e ≠ [])
    (hw_word : ∀ c ∈ w, isWordChar c = true)
    (hnds : ¬ ∃ k, e = k ++ d) (hnsd : ¬ ∃ k, d = k ++ e) :
    ∀ (fuel : Nat) (s pre tail : List Char), s.length ≤ fuel →
      s = pre ++ (e ++ '.' :: (w ++ tail)) → tailStop tail →
      ∃ a b, stripQualF d fuel s = a ++ (e ++ '.' :: w) ++ b := by
  intro fuel
  induction fuel with
  | zero =>
    intro s pre tail hlen hsplit ht
    exfalso
    subst hsplit
    simp only [List.length_append, List.length_cons] at hlen
    omega
  | succ f ih =>
    intro s pre tail hlen hsplit ht
    subst hsplit
    cases pre with
    | nil =>
      simp only [List.nil_append] at hlen ⊢
      obtain ⟨out, hout⟩ :=
        stripQualF_copy_region d e w hd_word hd_ne he_word hw_word hnds
          e ⟨[], by simp⟩ (f + 1) tail hlen ht
      exact ⟨[], out, by rw [hout]; simp⟩
    | cons c pre' =>
      simp only [List.cons_append] at hlen ⊢
      rw [stripQualF]
      cases hm : dbMatchAt d (c :: (pre' ++ (e ++ '.' :: (w ++ tail)))) with
      | none =>
        have hlen' : (pre' ++ (e ++ '.' :: (w ++ tail))).length ≤ f := by
          simp only [List.length_cons] at hlen
          omega
        obtain ⟨a, b, hrec⟩ := ih (pre' ++ (e ++ '.' :: (w ++ tail))) pre' tail hlen' rfl ht
        exact ⟨c :: a, b, by rw [hrec]; simp⟩
      | some p =>
        obtain ⟨wm, r⟩ := p
        obtain ⟨hs, hwm_ne, hwm_word, hmax⟩ := dbMatchAt_sound hm
        show ∃ a b, wm ++ stripQualF d f r = a ++ (e ++ '.' :: w) ++ b
        have hdlen : 1 ≤ d.length := List.length_pos.mpr hd_ne
        have hrlen : r.length ≤ f := by
          have hsl := congrArg List.length hs
          simp only [List.length_cons, List.length_append] at hsl hlen
          omega
        have hdot : ¬ isWordChar '.' = true := by decide
        have hs' : (c :: pre') ++ (e ++ '.' :: (w ++ tail)) = (d ++ ['.']) ++ (wm ++ r) := by
          simpa using hs
        rcases List.append_eq_append_iff.mp hs' with ⟨a', ha1, ha2⟩ | ⟨c', hB1, hB2⟩
        · -- the matched `db.` part ends at or before the region start
          cases a' with
          | nil =>
            simp only [List.nil_append] at ha2
            rcases List.append_eq_append_iff.mp ha2 with ⟨x, hx1, hx2⟩ | ⟨y, hy1, hy2⟩
            · cases x with
              | nil =>
                simp only [List.append_nil] at hx1
                simp only [List.nil_append] at hx2
                obtain ⟨out, hout⟩ :=
                  stripQualF_copy_region d e w hd_word hd_ne he_word hw_word hnds
                    [] ⟨e, by simp⟩ f tail (by simpa [← hx2] using hrlen) ht
                refine ⟨[], out, ?_⟩
                rw [← hx2, hx1]
                simp only [List.nil_append] at hout
                rw [hout]
                simp
              | cons xc xs =>
                exfalso
                simp only [List.cons_append] at hx2
                injection hx2 with h1 h2
                have hxm : xc ∈ wm := by
                  rw [hx1]
                  exact List.mem_append_right _ (List.mem_cons_self xc xs)
                have := hwm_word xc hxm
                rw [← h1] at this
                exact hdot this
            · cases y with
              | nil =>
                simp only [List.append_nil] at hy1
                simp only [List.nil_append] at hy2
                obtain ⟨out, hout⟩ :=
                  stripQualF_copy_region d e w hd_word hd_ne he_word hw_word hnds
                    [] ⟨e, by simp⟩ f tail (by simpa [hy2] using hrlen) ht
                refine ⟨[], out, ?_⟩
                rw [hy2, ← hy1]
                simp only [List.nil_append] at hout
                rw [hout]
                simp
              | cons yc ys =>
                exfalso
                have hyr : r = yc :: (ys ++ '.' :: (w ++ tail)) := by
                  rw [hy2]; simp
                have := hmax yc _ hyr
                have hye : yc ∈ e := by
                  rw [hy1]
                  exact List.mem_append_right _ (List.mem_cons_self yc ys)
                rw [he_word yc hye] at this
                simp at this
          | cons ac as =>
            exfalso
            rcases List.append_eq_append_iff.mp ha2 with ⟨x, hx1, hx2⟩ | ⟨y, hy1, hy2⟩
            · cases x with
              | nil =>
                simp only [List.append_nil] at hx1
                rw [hx1] at ha1
                have h1 := @List.getLast?_concat Char '.' d
                rw [ha1] at h1
                rw [getLast?_append_right (c :: pre') e he_ne] at h1
                have hmem := getLast?_mem e '.' h1
                exact hdot (he_word '.' hmem)
              | cons xc xs =>
                simp only [List.cons_append] at hx2
                injection hx2 with h1 h2
                rw [← h1] at hx1
                rw [hx1] at ha1
                cases xs with
                | nil =>
                  have ha1' : d ++ ['.'] = ((c :: pre') ++ e) ++ ['.'] := by
                    rw [ha1]; simp
                  obtain ⟨hde, -⟩ := List.append_inj' ha1' rfl
                  exact hnsd ⟨c :: pre', hde⟩
                | cons xc' xs' =>
                  have ha1' : d ++ ['.'] = ((c :: pre') ++ e) ++ ('.' :: xc' :: xs') := by
                    rw [ha1]; simp
                  rcases List.append_eq_append_iff.mp ha1' with ⟨u, hu1, hu2⟩ | ⟨v, hv1, hv2⟩
                  · cases u with
                    | nil =>
                      simp only [List.nil_append] at hu2
                      injection hu2 with h3 h4
                      exact List.cons_ne_nil xc' xs' h4.symm
                    | cons uc us =>
                      simp only [List.cons_append] at hu2
                      injection hu2 with h3 h4
                      have h5 := List.append_eq_nil.mp h4.symm
                      exact List.cons_ne_nil _ _ h5.2
                  · cases v with
                    | nil =>
                      simp only [List.nil_append] at hv2
                      injection hv2 with h3 h4
                      exact List.cons_ne_nil xc' xs' h4
                    | cons vc vs =>
                      simp only [List.cons_append] at hv2
                      injection hv2 with h3 h4
                      have hvd : vc ∈ d := by
                        rw [hv1]
                        exact List.mem_append_right _ (List.mem_cons_self vc vs)
                      have := hd_word vc hvd
                      rw [← h3] at this
                      exact hdot this
            · have hlast : (ac :: as).getLast? = some '.' := by
                have h1 := @List.getLast?_concat Char '.' d
                rw [ha1] at h1
                rw [getLast?_append_right (c :: pre') (ac :: as) (List.cons_ne_nil ac as)] at h1
                exact h1
              have hmem := getLast?_mem (ac :: as) '.' hlast
              have hine : ('.' : Char) ∈ e := by
                rw [hy1]
                exact List.mem_append_left _ hmem
              exact hdot (he_word '.' hine)
        · -- the matched `db.` part lies inside the prefix
          rcases List.append_eq_append_iff.mp hB2 with ⟨u, hu1, hu2⟩ | ⟨v, hv1, hv2⟩
          · obtain ⟨a, b, hrec⟩ := ih r u tail hrlen hu2 ht
            exact ⟨wm ++ a, b, by rw [hrec]; simp⟩
          · rcases List.append_eq_append_iff.mp hv2 with ⟨p', hp1, hp2⟩ | ⟨q, hq1, hq2⟩
            · cases p' with
              | nil =>
                simp only [List.append_nil] at hp1
                simp only [List.nil_append] at hp2
                obtain ⟨out, hout⟩ :=
                  stripQualF_copy_region d e w hd_word hd_ne he_word hw_word hnds
                    [] ⟨e, by simp⟩ f tail (by simpa [← hp2] using hrlen) ht
                refine ⟨c', out, ?_⟩
                rw [← hp2, hv1, hp1]
                simp only [List.nil_append] at hout
                rw [hout]
                simp
              | cons pc ps =>
                exfalso
                simp only [List.cons_append] at hp2
                injection hp2 with h1 h2
                have hpv : pc ∈ v := by
                  rw [hp1]
                  exact List.mem_append_right _ (List.mem_cons_self pc ps)
                have hpm : pc ∈ wm := by
                  rw [hv1]
                  exact List.mem_append_right _ hpv
                have := hwm_word pc hpm
                rw [← h1] at this
                exact hdot this
            · cases q with
              | nil =>
                simp only [List.append_nil] at hq1
                simp only [List.nil_append] at hq2
                obtain ⟨out, hout⟩ :=
                  stripQualF_copy_region d e w hd_word hd_ne he_word hw_word hnds
                    [] ⟨e, by simp⟩ f tail (by simpa [hq2] using hrlen) ht
                refine ⟨c', out, ?_⟩
                rw [hq2, hv1, ← hq1]
                simp only [List.nil_append] at hout
                rw [hout]
                simp
              | cons qc qs =>
                exfalso
                have hqr : r = qc :: (qs ++ '.' :: (w ++ tail)) := by
                  rw [hq2]; simp
                have := hmax qc _ hqr
                have hqe : qc ∈ e := by
                  rw [hq1]
                  exact List.mem_append_right _ (List.mem_cons_self qc qs)
                rw [he_word qc hqe] at this
                simp at this

theorem pyReplaceF_copy (pat repl : List Char) (hpat : pat ≠ []) :
    ∀ (reg : List Char) (fuel : Nat) (b : List Char), (reg ++ b).length ≤ fuel →
      (∀ c ∈ reg, c ∉ pat) →
      ∃ out, pyReplaceF pat repl fuel (reg ++ b) = reg ++ out := by
  intro reg
  induction reg with
  | nil => intro fuel b _ _; exact ⟨pyReplaceF pat repl fuel b, rfl⟩
  | cons rc rs ih =>
    intro fuel b hlen hdisj
    cases fuel with
    | zero => simp at hlen
    | succ f =>
      rw [List.cons_append, pyReplaceF]
      cases hd : dropPref pat (rc :: (rs ++ b)) with
      | some r =>
        exfalso
        have hs := dropPref_sound hd
        cases pat with
        | nil => exact hpat rfl
        | cons pc ps =>
          simp only [List.cons_append] at hs
          injection hs with h1 h2
          exact hdisj rc (List.mem_cons_self rc rs)
            (by rw [h1]; exact List.mem_cons_self pc ps)
      | none =>
        have hlen' : (rs ++ b).length ≤ f := by
          simp only [List.cons_append, List.length_cons] at hlen
          omega
        obtain ⟨out, hout⟩ := ih f b hlen'
          (fun c hc => hdisj c (List.mem_cons_of_mem _ hc))
        exact ⟨out, by rw [hout]; simp⟩

theorem pyReplaceF_preserves (pat repl : List Char) (hpat : pat ≠ []) :
    ∀ (fuel : Nat) (s a reg b : List Char), s.length ≤ fuel →
      s = a ++ reg ++ b → (∀ c ∈ reg, c ∉ pat) →
      ∃ x y, pyReplaceF pat repl fuel s = x ++ reg ++ y := by
  intro fuel
  induction fuel with
  | zero =>
    intro s a reg b hlen hsplit hdisj
    have hs0 : s = [] := List.eq_nil_of_length_eq_zero (Nat.le_zero.mp hlen)
    rw [hs0] at hsplit
    obtain ⟨h1, h2⟩ := List.append_eq_nil.mp hsplit.symm
    obtain ⟨-, h3⟩ := List.append_eq_nil.mp h1
    exact ⟨[], [], by rw [h3]; simp [pyReplaceF]⟩
  | succ f ih =>
    intro s a reg b hlen hsplit hdisj
    subst hsplit
    cases hreg : reg with
    | nil =>
      exact ⟨pyReplaceF pat repl (f + 1) (a ++ [] ++ b), [], by simp⟩
    | cons rc rs =>
    subst hreg
    cases a with
    | nil =>
      simp only [List.nil_append] at hlen ⊢
      obtain ⟨out, hout⟩ :=
        pyReplaceF_copy pat repl hpat (rc :: rs) (f + 1) b hlen hdisj
      exact ⟨[], out, by rw [hout]; simp⟩
    | cons ac as =>
      have hgoal : (ac :: as) ++ (rc :: rs) ++ b = ac :: (as ++ ((rc :: rs) ++ b)) := by
        simp
      rw [hgoal]
      cases hd : dropPref pat (ac :: (as ++ ((rc :: rs) ++ b))) with
      | none =>
        have hstep : pyReplaceF pat repl (f + 1) (ac :: (as ++ ((rc :: rs) ++ b))) =
            ac :: pyReplaceF pat repl f (as ++ ((rc :: rs) ++ b)) := by
          rw [pyReplaceF]
          simp only [hd]
        rw [hstep]
        have hlen' : (as ++ ((rc :: rs) ++ b)).length ≤ f := by
          rw [hgoal] at hlen
          simp only [List.length_cons, List.length_append] at hlen ⊢
          omega
        obtain ⟨x, y, hrec⟩ :=
          ih (as ++ ((rc :: rs) ++ b)) as (rc :: rs) b hlen' (by simp) hdisj
        exact ⟨ac :: x, y, by rw [hrec]; simp⟩
      | some r =>
        have hs := dropPref_sound hd
        have hpatlen : 1 ≤ pat.length := List.length_pos.mpr hpat
        have hguard : r.length < (as ++ ((rc :: rs) ++ b)).length + 1 := by
          have := congrArg List.length hs
          simp only [List.length_cons, List.length_append] at this ⊢
          omega
        have hstep : pyReplaceF pat repl (f + 1) (ac :: (as ++ ((rc :: rs) ++ b))) =
            repl ++ pyReplaceF pat repl f r := by
          rw [pyReplaceF]
          simp only [hd]
          rw [if_pos hguard]
        rw [hstep]
        have hrlen : r.length ≤ f := by
          have := congrArg List.length hs
          rw [hgoal] at hlen
          simp only [List.length_cons, List.length_append] at this hlen
          omega
        have hs' : (ac :: as) ++ ((rc :: rs) ++ b) = pat ++ r := by simpa using hs
        rcases List.append_eq_append_iff.mp hs' with ⟨u, hu1, hu2⟩ | ⟨v, hv1, hv2⟩
        · cases u with
          | nil =>
            simp only [List.nil_append] at hu2
            have hr' : r = (rc :: rs) ++ b := by simpa using hu2.symm
            have hrlen2 : ((rc :: rs) ++ b).length ≤ f := by rw [← hr']; exact hrlen
            obtain ⟨out, hout⟩ :=
              pyReplaceF_copy pat repl hpat (rc :: rs) f b hrlen2 hdisj
            refine ⟨repl, out, ?_⟩
            rw [hr', hout]
            simp
          | cons uc us =>
            exfalso
            simp only [List.cons_append] at hu2
            injection hu2 with h1 h2
            exact hdisj rc (List.mem_cons_self rc rs)
              (by rw [h1, hu1]; exact List.mem_append_right _ (List.mem_cons_self uc us))
        · obtain ⟨x, y, hrec⟩ := ih r v (rc :: rs) b hrlen (by rw [hv2]; simp) hdisj
          exact ⟨repl ++ x, y, by rw [hrec]; simp⟩

theorem suffix_iff_rev (d e : List Char) :
    (∃ k, e = k ++ d) ↔ hasPrefB d.reverse e.reverse = true := by
  rw [hasPrefB_iff]
  constructor
  · rintro ⟨k, rfl⟩
    exact ⟨k.reverse, by simp⟩
  · rintro ⟨r, hr⟩
    refine ⟨r.reverse, ?_⟩
    have := congrArg List.reverse hr
    simpa using this

/-- C7 (amended): when the first `FROM <identifier>.<identifier>` match
captures database `d`, only `d` is used both as the wrapper name and as the
stripping pattern; a qualified reference `e.w` to another database is left
unchanged inside the wrapper provided neither of `d`, `e` is a suffix of
the other and the reference is followed by a non-word, non-dot character
(or the end of the text).  (The suffix proviso is forced by the
counterexample: the substitution also rewrites inside `myshop.b` when the
first database is `shop`.) -/
theorem transform_query_first_db_only (t d w0 : List Char)
    (rest : List (List Char × List Char)) (pre e w tail : List Char)
    (hfind : fromFindall (collapseWs t) = (d, w0) :: rest)
    (hsplit : collapseWs t = pre ++ (e ++ '.' :: (w ++ tail)))
    (he_word : ∀ c ∈ e, isWordChar c = true) (he_ne : e ≠ [])
    (hw_word : ∀ c ∈ w, isWordChar c = true) (hw_ne : w ≠ [])
    (hnds : ¬ ∃ k, e = k ++ d) (hnsd : ¬ ∃ k, d = k ++ e)
    (ht : tailStop tail) :
    transform_query t =
      str "SELECT * FROM " ++ d ++ str "(" ++
        pyReplace (str ";") [] (pyReplace (str "\"\"\"") []
          (stripQual d (collapseWs t))) ++ str ");" ∧
    hasSubB (e ++ '.' :: w) (transform_query t) = true := by
  have hout : transform_query t =
      str "SELECT * FROM " ++ d ++ str "(" ++
        pyReplace (str ";") [] (pyReplace (str "\"\"\"") []
          (stripQual d (collapseWs t))) ++ str ");" := by
    unfold transform_query
    rw [hfind]
  refine ⟨hout, ?_⟩
  obtain ⟨s', r', hm⟩ := reFindallF_head hfind
  obtain ⟨-, hd_ne, -, hd_word, -⟩ := fromMatchAt_sound hm
  have hmemchar : ∀ c ∈ e ++ '.' :: w, isWordChar c = true ∨ c = '.' := by
    intro c hc
    rcases List.mem_append.mp hc with h | h
    · exact Or.inl (he_word c h)
    · rcases List.mem_cons.mp h with rfl | h
      · exact Or.inr rfl
      · exact Or.inl (hw_word c h)
  have hdisj_q : ∀ c ∈ e ++ '.' :: w, c ∉ str "\"\"\"" := by
    intro c hc hcp
    have hcq : c = '"' := by
      rcases List.mem_cons.mp hcp with h | h
      · exact h
      rcases List.mem_cons.mp h with h | h
      · exact h
      rcases List.mem_cons.mp h with h | h
      · exact h
      · simp [str] at h
    subst hcq
    rcases hmemchar '"' hc with h | h
    · exact absurd h (by decide)
    · exact absurd h (by decide)
  have hdisj_s : ∀ c ∈ e ++ '.' :: w, c ∉ str ";" := by
    intro c hc hcp
    have hcq : c = ';' := by
      rcases List.mem_cons.mp hcp with h | h
      · exact h
      · simp [str] at h
    subst hcq
    rcases hmemchar ';' hc with h | h
    · exact absurd h (by decide)
    · exact absurd h (by decide)
  obtain ⟨a1, b1, h1⟩ :=
    stripQualF_preserves d e w hd_word hd_ne he_word he_ne hw_word hnds hnsd
      (collapseWs t).length (collapseWs t) pre tail le_rfl hsplit ht
  obtain ⟨a2, b2, h2⟩ :=
    pyReplaceF_preserves (str "\"\"\"") [] (by decide)
      (stripQual d (collapseWs t)).length (stripQual d (collapseWs t))
      a1 (e ++ '.' :: w) b1 le_rfl h1 hdisj_q
  obtain ⟨a3, b3, h3⟩ :=
    pyReplaceF_preserves (str ";") [] (by decide)
      (pyReplace (str "\"\"\"") [] (stripQual d (collapseWs t))).length
      (pyReplace (str "\"\"\"") [] (stripQual d (collapseWs t)))
      a2 (e ++ '.' :: w) b2 le_rfl h2 hdisj_s
  rw [hout]
  apply (hasSubB_iff _ _).mpr
  refine ⟨str "SELECT * FROM " ++ d ++ str "(" ++ a3, b3 ++ str ");", ?_⟩
  have h3' : pyReplace (str ";") [] (pyReplace (str "\"\"\"") []
      (stripQual d (collapseWs t))) = a3 ++ (e ++ '.' :: w) ++ b3 := h3
  rw [h3']
  simp

/-- Witness for C7 (amended) at a concrete two-database query. -/
theorem transform_query_first_db_only_witness :
    transform_query (str "SELECT * FROM shop.a, other.b WHERE c = 1") =
        str "SELECT * FROM shop(SELECT * FROM a, other.b WHERE c = 1);" ∧
      hasSubB (str "other" ++ '.' :: str "b")
        (transform_query (str "SELECT * FROM shop.a, other.b WHERE c = 1")) = true := by
  have h := transform_query_first_db_only
    (str "SELECT * FROM shop.a, other.b WHERE c = 1") (str "shop") (str "a") []
    (str "SELECT * FROM shop.a, ") (str "other") (str "b") (str " WHERE c = 1")
    (by decide) (by decide) (by decide) (by decide) (by decide) (by decide)
    (by simp only [suffix_iff_rev]; decide)
    (by simp only [suffix_iff_rev]; decide)
    (Or.inr ⟨' ', str "WHERE c = 1", by decide, by decide, by decide⟩)
  refine ⟨h.1.trans (by decide), h.2⟩

/-! ## Inner-join detector (`check_inner_joins`) -/

/-- Normalization of `check_inner_joins`:
`' '.join(sql_query.strip().split()).upper()` (the leading `strip` is
subsumed by `split`). -/
def normalizeQuery (sql_query : List Char) : List Char := upperL (collapseWs sql_query)

/-- Captured groups of the two modern join patterns. -/
structure ModernJoinGroups where
  table : List Char
  aliasName : Option (List Char)
  cond : List Char
deriving DecidableEq

/-- Captured groups of the legacy comma-join pattern. -/
structure CommaJoinGroups where
  t1 : List Char
  t2 : List Char
  cond : List Char
deriving DecidableEq

/-- Match `\s+` followed by a literal. -/
def wsLit (lit : List Char) (s : List Char) : Option (List Char) := do
  let (_, r) ← takeWhile1 isSpaceChar s
  dropPref lit r

/-- The families of the alternation `(?:INNER|LEFT|RIGHT|FULL|CROSS)`. -/
def joinKinds : List (List Char) :=
  [str "INNER", str "LEFT", str "RIGHT", str "FULL", str "CROSS"]

/-- First terminator family of the two modern join patterns:
`\s+(?:INNER|LEFT|RIGHT|FULL|CROSS)\s+JOIN`. -/
def matchKindJoin (s : List Char) : Option (List Char) := do
  let (_, r1) ← takeWhile1 isSpaceChar s
  let r2 ← firstSome? (joinKinds.map (fun k => dropPref k r1))
  let (_, r3) ← takeWhile1 isSpaceChar r2
  dropPref (str "JOIN") r3

/-- Terminator alternation of the two modern join patterns
`(?:\s+(?:INNER|LEFT|RIGHT|FULL|CROSS)\s+JOIN|\s+WHERE|\s+GROUP|\s+ORDER|\s+LIMIT|$)`,
tried in the regex's order; `$` consumes nothing at the end of the text. -/
def endingP12 (s : List Char) : Option (List Char) :=
  matchKindJoin s <|> wsLit (str "WHERE") s <|> wsLit (str "GROUP") s <|>
    wsLit (str "ORDER") s <|> wsLit (str "LIMIT") s <|>
    (if s.isEmpty then some s else none)

/-- Terminator alternation `(?:\s+GROUP|\s+ORDER|\s+LIMIT|$)` of the
comma-join pattern. -/
def endingP3 (s : List Char) : Option (List Char) :=
  wsLit (str "GROUP") s <|> wsLit (str "ORDER") s <|> wsLit (str "LIMIT") s <|>
    (if s.isEmpty then some s else none)

/-- Growth loop of the lazy capture `([^;]+?)` followed by a terminator:
after at least one captured character, first try the terminator at the
current point, otherwise capture one more non-`;` character. -/
def lazyCondStep (ending : List Char → Option (List Char)) :
    List Char → List Char → Option (List Char × List Char)
  | s, acc =>
    match ending s with
    | some r => some (acc.reverse, r)
    | none =>
      match s with
      | c :: rest => if c = ';' then none else lazyCondStep ending rest (c :: acc)
      | [] => none

/-- Entry of the lazy capture: `+?` must consume at least one character
before the terminator is first tried. -/
def lazyCondEntry (ending : List Char → Option (List Char)) (s : List Char) :
    Option (List Char × List Char) :=
  match s with
  | c :: rest => if c = ';' then none else lazyCondStep ending rest [c]
  | [] => none

/-- Shared tail `\s+(\w+)(?:\s+AS\s+(\w+))?\s+ON\s+([^;]+?)<terminator>` of
the two modern join patterns, starting right after the `JOIN` literal.  The
optional alias group is greedy: the with-alias parse (including the whole
continuation) is preferred, falling back to the no-alias parse. -/
def joinTail (ending : List Char → Option (List Char)) (r3 : List Char) :
    Option (ModernJoinGroups × List Char) := do
  let (_, r4) ← takeWhile1 isSpaceChar r3
  let (table, r5) ← takeWhile1 isWordChar r4
  let withAlias : Option (ModernJoinGroups × List Char) := do
    let (_, a1) ← takeWhile1 isSpaceChar r5
    let a2 ← dropPref (str "AS") a1
    let (_, a3) ← takeWhile1 isSpaceChar a2
    let (al, a4) ← takeWhile1 isWordChar a3
    let (_, o1) ← takeWhile1 isSpaceChar a4
    let o2 ← dropPref (str "ON") o1
    let (_, o3) ← takeWhile1 isSpaceChar o2
    let (cond, r6) ← lazyCondEntry ending o3
    pure (⟨table, some al, cond⟩, r6)
  match withAlias with
  | some x => some x
  | none => do
    let (_, o1) ← takeWhile1 isSpaceChar r5
    let o2 ← dropPref (str "ON") o1
    let (_, o3) ← takeWhile1 isSpaceChar o2
    let (cond, r6) ← lazyCondEntry ending o3
    pure (⟨table, none, cond⟩, r6)

/-- Head match of the first join pattern
`INNER\s+JOIN\s+(\w+)(?:\s+AS\s+(\w+))?\s+ON\s+([^;]+?)<terminator>`. -/
def p1MatchAt (s : List Char) : Option (ModernJoinGroups × List Char) := do
  let r1 ← dropPref (str "INNER") s
  let (_, r2) ← takeWhile1 isSpaceChar r1
  let r3 ← dropPref (str "JOIN") r2
  joinTail endingP12 r3

/-- Head match of the second join pattern
`\sJOIN\s+(\w+)(?:\s+AS\s+(\w+))?\s+ON\s+([^;]+?)<terminator>`. -/
def p2MatchAt (s : List Char) : Option (ModernJoinGroups × List Char) :=
  match s with
  | c :: r1 =>
    if isSpaceChar c then (dropPref (str "JOIN") r1).bind (joinTail endingP12)
    else none
  | [] => none

/-- The optional group `(?:\s+AS\s+\w+)?` (alias discarded), greedy with
fallback, followed by the continuation `k`. -/
def optAsSkip (r : List Char) (k : List Char → Option α) : Option α :=
  match (do
      let (_, a1) ← takeWhile1 isSpaceChar r
      let a2 ← dropPref (str "AS") a1
      let (_, a3) ← takeWhile1 isSpaceChar a2
      let (_, a4) ← takeWhile1 isWordChar a3
      k a4) with
  | some x => some x
  | none => k r

/-- Head match of the comma-join pattern
`FROM\s+(\w+)(?:\s+AS\s+\w+)?\s*,\s*(\w+)(?:\s+AS\s+\w+)?\s+WHERE\s+([^;]+?)<terminator>`. -/
def p3MatchAt (s : List Char) : Option (CommaJoinGroups × List Char) := do
  let r1 ← dropPref (str "FROM") s
  let (_, r2) ← takeWhile1 isSpaceChar r1
  let (t1, r3) ← takeWhile1 isWordChar r2
  optAsSkip r3 (fun r4 => do
    let r6 ← dropPref (str ",") (r4.dropWhile isSpaceChar)
    let (t2, r8) ← takeWhile1 isWordChar (r6.dropWhile isSpaceChar)
    optAsSkip r8 (fun r9 => do
      let (_, w1) ← takeWhile1 isSpaceChar r9
      let w2 ← dropPref (str "WHERE") w1
      let (_, w3) ← takeWhile1 isSpaceChar w2
      let (cond, r10) ← lazyCondEntry endingP3 w3
      pure (⟨t1, t2, cond⟩, r10)))

/-- Fuel-indexed `re.finditer`: leftmost non-overlapping matches with their
start position and length.  Every matcher used consumes at least one
character, so the input length is sufficient fuel. -/
def reFinditerF (m : List Char → Option (γ × List Char)) :
    Nat → List Char → Nat → List (Nat × Nat × γ)
  | 0, _, _ => []
  | _ + 1, [], _ => []
  | fuel + 1, c :: rest, pos =>
    match m (c :: rest) with
    | some (g, r) =>
      (pos, (c :: rest).length - r.length, g) ::
        reFinditerF m fuel r (pos + ((c :: rest).length - r.length))
    | none => reFinditerF m fuel rest (pos + 1)

/-- Prefix of `s` before the first occurrence of `pat`
(Python `s.split(pat)[0]`). -/
def splitFirstBefore (pat : List Char) : List Char → List Char
  | [] => []
  | c :: rest =>
    if hasPrefB pat (c :: rest) then [] else c :: splitFirstBefore pat rest

/-- Python `str.strip()`. -/
def pyStrip (s : List Char) : List Char :=
  ((s.dropWhile isSpaceChar).reverse.dropWhile isSpaceChar).reverse

/-- The clause list of `clean_condition`. -/
def join_clauses : List (List Char) :=
  [str "INNER JOIN", str "LEFT JOIN", str "RIGHT JOIN", str "FULL JOIN",
   str "CROSS JOIN", str "WHERE", str "GROUP BY", str "ORDER BY", str "LIMIT"]

/-- Embedding of `clean_condition`: for each clause in order, cut the text
at the first occurrence of `' ' + clause + ' '`; finally strip. -/
def clean_condition (condition_text : List Char) : List Char :=
  pyStrip (join_clauses.foldl
    (fun c clause =>
      if hasSubB ([' '] ++ clause ++ [' ']) c then
        splitFirstBefore ([' '] ++ clause ++ [' ']) c
      else c)
    condition_text)

/-- One entry of `join_details`. -/
inductive JoinDetail where
  | implicit_comma (tables : List (List Char)) (condition : List Char) (position : Nat)
  | modern (jtype : List Char) (table : List Char) (aliasName : Option (List Char))
      (condition : List Char) (position : Nat)
deriving DecidableEq

def JoinDetail.position : JoinDetail → Nat
  | .implicit_comma _ _ p => p
  | .modern _ _ _ _ p => p

/-- Detail built from a modern-pattern match.  (For these matches
`match.group(0)` starts with `INNER` or a whitespace character, so the
source's `startswith('FROM')` test is always false; the join is `explicit`
iff `INNER JOIN` occurs in the matched text.) -/
def toDetailModern (n : List Char) (m : Nat × Nat × ModernJoinGroups) : JoinDetail :=
  JoinDetail.modern
    (if hasSubB (str "INNER JOIN") ((n.drop m.1).take m.2.1) then str "explicit"
     else str "implicit")
    m.2.2.table m.2.2.aliasName (clean_condition m.2.2.cond) m.1

/-- Detail built from a comma-pattern match (its `match.group(0)` always
starts with `FROM`). -/
def toDetailComma (m : Nat × Nat × CommaJoinGroups) : JoinDetail :=
  JoinDetail.implicit_comma [m.2.2.t1, m.2.2.t2] (clean_condition m.2.2.cond) m.1

/-- Stable insertion into a position-sorted list (ties keep earlier entries
first, as Python's stable `list.sort`). -/
def insertByPos (x : JoinDetail) : List JoinDetail → List JoinDetail
  | [] => [x]
  | y :: ys =>
    if y.position < x.position then y :: insertByPos x ys else x :: y :: ys

/-- Stable sort by `position` (Python `list.sort(key=position)`). -/
def sortByPos : List JoinDetail → List JoinDetail
  | [] => []
  | x :: xs => insertByPos x (sortByPos xs)

structure InnerJoinResult where
  has_inner_joins : Bool
  join_count : Nat
  join_details : List JoinDetail
  normalized_query : List Char
deriving DecidableEq

/-- Embedding of `check_inner_joins`: normalize, run the three pattern
scans in order, convert matches to details, sort by position. -/
def check_inner_joins (sql_query : List Char) : InnerJoinResult :=
  { has_inner_joins :=
      0 < (reFinditerF p1MatchAt (normalizeQuery sql_query).length
            (normalizeQuery sql_query) 0).length +
          (reFinditerF p2MatchAt (normalizeQuery sql_query).length
            (normalizeQuery sql_query) 0).length +
          (reFinditerF p3MatchAt (normalizeQuery sql_query).length
            (normalizeQuery sql_query) 0).length
    join_count :=
      (reFinditerF p1MatchAt (normalizeQuery sql_query).length
        (normalizeQuery sql_query) 0).length +
      (reFinditerF p2MatchAt (normalizeQuery sql_query).length
        (normalizeQuery sql_query) 0).length +
      (reFinditerF p3MatchAt (normalizeQuery sql_query).length
        (normalizeQuery sql_query) 0).length
    join_details :=
      sortByPos
        ((reFinditerF p1MatchAt (normalizeQuery sql_query).length
            (normalizeQuery sql_query) 0).map (toDetailModern (normalizeQuery sql_query)) ++
         (reFinditerF p2MatchAt (normalizeQuery sql_query).length
            (normalizeQuery sql_query) 0).map (toDetailModern (normalizeQuery sql_query)) ++
         (reFinditerF p3MatchAt (normalizeQuery sql_query).length
            (normalizeQuery sql_query) 0).map toDetailComma)
    normalized_query := normalizeQuery sql_query }

/-- Embedding of `has_inner_joins`. -/
def has_inner_joins (sql_query : List Char) : Bool :=
  (check_inner_joins sql_query).has_inner_joins

/-- Counterexample for C2 as stated: the scenario query yields TWO join
descriptors, not exactly one — the explicit `INNER JOIN` pattern and the
bare-`JOIN` pattern both match the same join. -/
theorem check_inner_joins_scenario_count :
    (check_inner_joins (str "SELECT * FROM t1 INNER JOIN t2 ON t1.id = t2.id")).has_inner_joins
        = true ∧
      (check_inner_joins
        (str "SELECT * FROM t1 INNER JOIN t2 ON t1.id = t2.id")).join_details.length = 2 := by
  decide

/-- C2 (amended): on the scenario query the detector reports
`has_inner_joins = true` with exactly two descriptors: an `explicit` one
(from the `INNER JOIN` pattern, at offset 17 of the normalized text) and an
`implicit` one (the bare-`JOIN` pattern matching the same join at offset
22), both with table `T2`, no alias, and condition `T1.ID = T2.ID`. -/
theorem check_inner_joins_scenario :
    check_inner_joins (str "SELECT * FROM t1 INNER JOIN t2 ON t1.id = t2.id") =
      { has_inner_joins := true
        join_count := 2
        join_details :=
          [JoinDetail.modern (str "explicit") (str "T2") none (str "T1.ID = T2.ID") 17,
           JoinDetail.modern (str "implicit") (str "T2") none (str "T1.ID = T2.ID") 22]
        normalized_query := str "SELECT * FROM T1 INNER JOIN T2 ON T1.ID = T2.ID" } := by
  decide

/-! ## Date-function detector (`check_date_functions`) -/

/-- The fixed date/time vocabulary, in the source's order. -/
def date_functions : List (List Char) :=
  [str "CURRENT_DATE", str "CURRENT_TIME", str "CURRENT_TIMESTAMP",
   str "LOCALTIME", str "LOCALTIMESTAMP", str "NOW",
   str "MAKE_DATE", str "MAKE_TIME", str "MAKE_TIMESTAMP", str "MAKE_TIMESTAMPTZ",
   str "DATE_PART", str "DATE_TRUNC", str "EXTRACT", str "CENTURY", str "DECADE",
   str "EPOCH", str "YEAR", str "MONTH", str "DAY",
   str "HOUR", str "MINUTE", str "SECOND", str "MILLISECOND", str "MICROSECOND",
   str "TO_CHAR", str "TO_DATE", str "TO_TIMESTAMP",
   str "AGE", str "DATE_BIN", str "JUSTIFY_DAYS", str "JUSTIFY_HOURS",
   str "JUSTIFY_INTERVAL",
   str "TIMEZONE", str "AT TIME ZONE",
   str "INTERVAL"]

/-- Head match of `\b(KW1|...|KWn)\b` (case-insensitivity is obtained by
matching the upper-cased text): the leading word boundary requires the
previous character not to be a word character (every keyword starts with
one); each alternative is tried in order and must be followed by a word
boundary (every keyword ends with a word character). -/
def dateMatchAt (prev_is_word : Bool) (s : List Char) : Option (List Char × List Char) :=
  if prev_is_word then none
  else
    firstSome? (date_functions.map (fun kw =>
      match dropPref kw s with
      | some r =>
        match r with
        | [] => some (kw, r)
        | c :: _ => if isWordChar c then none else some (kw, r)
      | none => none))

/-- Fuel-indexed `re.finditer` of the date pattern, tracking the word-ness
of the previous character for the `\b` test.  After a match the previous
character is the keyword's last character, which is always a word
character. -/
def dateScanF : Nat → Bool → List Char → Nat → List (List Char × Nat)
  | 0, _, _, _ => []
  | _ + 1, _, [], _ => []
  | fuel + 1, prev, c :: rest, pos =>
    match dateMatchAt prev (c :: rest) with
    | some (kw, r) => (kw, pos) :: dateScanF fuel true r (pos + kw.length)
    | none => dateScanF fuel (isWordChar c) rest (pos + 1)

structure DateResult where
  has_date_functions : Bool
  found_functions : List (List Char)
  positions : List (List Char × Nat)
deriving DecidableEq

/-- Embedding of `check_date_functions`: case-insensitive whole-word scan;
`positions` holds the matched original-case text with its offset;
`found_functions` is the de-duplicated list of matched texts (the source's
`list(set(...))` has unspecified order; first occurrences are kept here). -/
def check_date_functions (sql_query : List Char) : DateResult :=
  { has_date_functions :=
      !(dateScanF sql_query.length false (upperL sql_query) 0).isEmpty
    found_functions :=
      ((dateScanF sql_query.length false (upperL sql_query) 0).map
        (fun m => (sql_query.drop m.2).take m.1.length)).dedup
    positions :=
      (dateScanF sql_query.length false (upperL sql_query) 0).map
        (fun m => ((sql_query.drop m.2).take m.1.length, m.2)) }

/-- Embedding of `has_date_functions`. -/
def has_date_functions (sql_query : List Char) : Bool :=
  (check_date_functions sql_query).has_date_functions

/-- Embedding of `needs_native_query`. -/
def needs_native_query (sql_query : List Char) : Bool :=
  has_date_functions sql_query || has_json sql_query || has_inner_joins sql_query

theorem hasSubB_cons_of {p rest : List Char} (c : Char)
    (h : hasSubB p rest = true) : hasSubB p (c :: rest) = true := by
  simp [hasSubB, h]

theorem dateMatchAt_sound {prev : Bool} {s kw r : List Char}
    (h : dateMatchAt prev s = some (kw, r)) :
    kw ∈ date_functions ∧ s = kw ++ r := by
  unfold dateMatchAt at h
  split at h
  · exact absurd h (by simp)
  · obtain ⟨kw0, hmem, hf⟩ := List.mem_map.mp (firstSome?_mem h)
    cases hdp : dropPref kw0 s with
    | none => rw [hdp] at hf; simp at hf
    | some r0 =>
      rw [hdp] at hf
      cases r0 with
      | nil =>
        simp only [Option.some.injEq] at hf
        injection hf with h1 h2
        subst h1; subst h2
        exact ⟨hmem, by simpa using dropPref_sound hdp⟩
      | cons c cs =>
        cases hwc : isWordChar c with
        | true => simp [hwc] at hf
        | false =>
          simp only [hwc, Bool.false_eq_true, if_false, Option.some.injEq] at hf
          injection hf with h1 h2
          subst h1; subst h2
          exact ⟨hmem, dropPref_sound hdp⟩

theorem dateScanF_sub :
    ∀ (fuel : Nat) (prev : Bool) (s : List Char) (pos : Nat),
      dateScanF fuel prev s pos ≠ [] →
      ∃ kw ∈ date_functions, hasSubB kw s = true := by
  intro fuel
  induction fuel with
  | zero => intro prev s pos h; simp [dateScanF] at h
  | succ f ih =>
    intro prev s pos h
    cases s with
    | nil => simp [dateScanF] at h
    | cons c rest =>
      rw [dateScanF] at h
      cases hm : dateMatchAt prev (c :: rest) with
      | some p =>
        obtain ⟨kw, r⟩ := p
        obtain ⟨hmem, hsplit⟩ := dateMatchAt_sound hm
        exact ⟨kw, hmem, (hasSubB_iff _ _).mpr ⟨[], r, by simpa using hsplit⟩⟩
      | none =>
        rw [hm] at h
        obtain ⟨kw, hmem, hsub⟩ := ih (isWordChar c) rest (pos + 1) h
        exact ⟨kw, hmem, hasSubB_cons_of c hsub⟩

theorem p1MatchAt_join {s : List Char} {x : ModernJoinGroups × List Char}
    (h : p1MatchAt s = some x) : hasSubB (str "JOIN") s = true := by
  simp only [p1MatchAt, bind, Option.bind_eq_some] at h
  obtain ⟨r1, h1, ⟨ws, r2⟩, h2, r3, h3, -⟩ := h
  dsimp only at h3
  have e1 := dropPref_sound h1
  obtain ⟨e2, -, -, -⟩ := takeWhile1_sound h2
  have e3 := dropPref_sound h3
  refine (hasSubB_iff _ _).mpr ⟨str "INNER" ++ ws, r3, ?_⟩
  rw [e1, e2, e3]
  simp

theorem p2MatchAt_join {s : List Char} {x : ModernJoinGroups × List Char}
    (h : p2MatchAt s = some x) : hasSubB (str "JOIN") s = true := by
  unfold p2MatchAt at h
  cases s with
  | nil => simp at h
  | cons c r1 =>
    cases hsp : isSpaceChar c with
    | true =>
      simp only [hsp, if_true] at h
      obtain ⟨r', h', -⟩ := Option.bind_eq_some.mp h
      have e := dropPref_sound h'
      refine (hasSubB_iff _ _).mpr ⟨[c], r', ?_⟩
      rw [e]
      simp
    | false => simp [hsp] at h

theorem reFinditerF_ne_nil {γ : Type} {m : List Char → Option (γ × List Char)} :
    ∀ (fuel : Nat) (s : List Char) (pos : Nat), reFinditerF m fuel s pos ≠ [] →
      ∃ u s', s = u ++ s' ∧ ∃ x, m s' = some x := by
  intro fuel
  induction fuel with
  | zero => intro s pos h; simp [reFinditerF] at h
  | succ f ih =>
    intro s pos h
    cases s with
    | nil => simp [reFinditerF] at h
    | cons c rest =>
      rw [reFinditerF] at h
      cases hm : m (c :: rest) with
      | some p => exact ⟨[], c :: rest, rfl, p, hm⟩
      | none =>
        rw [hm] at h
        obtain ⟨u, s', hsplit, x, hx⟩ := ih rest (pos + 1) h
        exact ⟨c :: u, s', by rw [hsplit]; rfl, x, hx⟩

/-- Counterexample for C1 as stated: `"SELECT * FROM a, b WHERE c = d"`
contains no date keyword, no JSON operator/function/cast, and no join
keyword, yet `needs_native_query` returns true — the legacy comma-join
pattern of `check_inner_joins` matches. -/
theorem needs_native_query_comma_join :
    (∀ kw ∈ date_functions,
      hasSubB kw (upperL (str "SELECT * FROM a, b WHERE c = d")) = false) ∧
    (∀ od ∈ json_operators,
      hasSubB od.1 (str "SELECT * FROM a, b WHERE c = d") = false) ∧
    (∀ f ∈ json_functions,
      hasSubB (lowerL f) (lowerL (str "SELECT * FROM a, b WHERE c = d")) = false) ∧
    hasSubB (str "::json") (str "SELECT * FROM a, b WHERE c = d") = false ∧
    hasSubB (str "JOIN") (normalizeQuery (str "SELECT * FROM a, b WHERE c = d")) = false ∧
    needs_native_query (str "SELECT * FROM a, b WHERE c = d") = true := by
  decide

/-- C1 (amended): a text containing no date keyword
(case-insensitively), no JSON operator, function or cast, no `JOIN`
keyword in its normalized form, AND no match of the legacy comma-join
pattern, gets `needs_native_query = false`.  (The comma-join exclusion is
forced by the counterexample: `FROM a, b WHERE ...` triggers the join
detector without any join keyword.) -/
theorem needs_native_query_quiet (t : List Char)
    (hdate : ∀ kw ∈ date_functions, hasSubB kw (upperL t) = false)
    (hops : ∀ od ∈ json_operators, hasSubB od.1 t = false)
    (hfns : ∀ f ∈ json_functions, hasSubB (lowerL f) (lowerL t) = false)
    (hcast1 : hasSubB (str "::json") t = false)
    (hcast2 : hasSubB (str "::jsonb") t = false)
    (hjoin : hasSubB (str "JOIN") (normalizeQuery t) = false)
    (hcomma : reFinditerF p3MatchAt (normalizeQuery t).length (normalizeQuery t) 0 = []) :
    needs_native_query t = false := by
  have hd : has_date_functions t = false := by
    have hscan : dateScanF t.length false (upperL t) 0 = [] := by
      by_contra hne
      obtain ⟨kw, hkw, hsub⟩ := dateScanF_sub _ _ _ _ hne
      rw [hdate kw hkw] at hsub
      simp at hsub
    simp [has_date_functions, check_date_functions, hscan]
  have hj : has_json t = false := by
    have hops' : json_ops_found t = [] := by
      by_contra h
      obtain ⟨od, hmem, hsub⟩ := (filter_ne_nil_iff _ _).mp h
      rw [hops od hmem] at hsub
      simp at hsub
    have hfns' : json_fns_found t = [] := by
      by_contra h
      obtain ⟨fn, hmem, hsub⟩ := (filter_ne_nil_iff _ _).mp h
      rw [hfns fn hmem] at hsub
      simp at hsub
    have hcasts' : json_casts_found t = [] := by
      simp [json_casts_found, hcast1, hcast2]
    simp [has_json, analyze_json_operations, hops', hfns', hcasts']
  have hij : has_inner_joins t = false := by
    have hp1 : reFinditerF p1MatchAt (normalizeQuery t).length (normalizeQuery t) 0 = [] := by
      by_contra h
      obtain ⟨u, s', hsplit, x, hm⟩ := reFinditerF_ne_nil _ _ _ h
      have hsub := hasSubB_of_suffix (p1MatchAt_join hm) ⟨u, hsplit⟩
      rw [hjoin] at hsub
      simp at hsub
    have hp2 : reFinditerF p2MatchAt (normalizeQuery t).length (normalizeQuery t) 0 = [] := by
      by_contra h
      obtain ⟨u, s', hsplit, x, hm⟩ := reFinditerF_ne_nil _ _ _ h
      have hsub := hasSubB_of_suffix (p2MatchAt_join hm) ⟨u, hsplit⟩
      rw [hjoin] at hsub
      simp at hsub
    simp [has_inner_joins, check_inner_joins, hp1, hp2, hcomma]
  rw [needs_native_query, hd, hj, hij]
  rfl

/-- Witness for C1 (amended) at a concrete quiet query. -/
theorem needs_native_query_quiet_witness :
    needs_native_query (str "SELECT id FROM t WHERE x = 1") = false :=
  needs_native_query_quiet (str "SELECT id FROM t WHERE x = 1")
    (by decide) (by decide) (by decide) (by decide) (by decide) (by decide) (by decide)

/-! ## SQL-parser tool shell (`MindsDBSQLParserTool._run`)

The external parser collaborator (`parse_sql` plus `ast.to_string`) is not
part of this subsystem; per the spec it is the capability
`parse(text, dialect) → AST or error` with `AST → canonical text`.  It is
modelled as an arbitrary function from query text to either a canonical
text or a diagnostic message. -/

inductive ParseResult where
  | ok (canonical : List Char)
  | error (msg : List Char)
deriving DecidableEq

/-- Embedding of `_query_options`: the query as-is, then — only when the
text contains the literal `\_` — the variant with every `\_` replaced by
`_`. -/
def _query_options (query : List Char) : List (List Char) :=
  [query] ++
    (if hasSubB (str "\\_") query then [pyReplace (str "\\_") (str "_") query] else [])

/-- The preprocessing of `_run`: markdown-fence cleaning, then the native
transform when JSON constructs are detected. -/
def processedQuery (query : List Char) : List Char :=
  if has_json (_clean_query query) then transform_query (_clean_query query)
  else _clean_query query

/-- The retry loop of `_run`: candidates are tried in order; the first one
the parser accepts yields `valid query: <canonical>`; each failure
overwrites `error`, which is returned when every candidate fails. -/
def tryOptions (parse : List Char → ParseResult) :
    List (List Char) → List Char → List Char
  | [], err => err
  | q :: rest, _ =>
    match parse q with
    | ParseResult.ok canon => str "valid query: " ++ canon
    | ParseResult.error e => tryOptions parse rest (str "invalid query, with error: " ++ e)

/-- Embedding of `_run`, parameterized by the external parser capability.
The initial `error` value is never returned because the candidate list is
nonempty. -/
def _run (parse : List Char → ParseResult) (query : List Char) : List Char :=
  tryOptions parse (_query_options (processedQuery query)) []

/-- C6: the candidates are tried in the fixed order (as-is first, then the
`\_`-unescaped variant when applicable); the first accepted candidate's
canonical text is returned; if every candidate fails, the error of the
last attempted candidate is returned.  In particular a query failing as
given but parsing after `\_ → _` substitution yields the substituted
variant's canonical text, not an error. -/
theorem run_retry_spec :
    (∀ (parse : List Char → ParseResult) (query a : List Char),
      parse (processedQuery query) = ParseResult.ok a →
      _run parse query = str "valid query: " ++ a) ∧
    (∀ (parse : List Char → ParseResult) (query e a : List Char),
      hasSubB (str "\\_") (processedQuery query) = true →
      parse (processedQuery query) = ParseResult.error e →
      parse (pyReplace (str "\\_") (str "_") (processedQuery query)) = ParseResult.ok a →
      _run parse query = str "valid query: " ++ a) ∧
    (∀ (parse : List Char → ParseResult) (query e1 e2 : List Char),
      hasSubB (str "\\_") (processedQuery query) = true →
      parse (processedQuery query) = ParseResult.error e1 →
      parse (pyReplace (str "\\_") (str "_") (processedQuery query)) = ParseResult.error e2 →
      _run parse query = str "invalid query, with error: " ++ e2) ∧
    (∀ (parse : List Char → ParseResult) (query e : List Char),
      hasSubB (str "\\_") (processedQuery query) = false →
      parse (processedQuery query) = ParseResult.error e →
      _run parse query = str "invalid query, with error: " ++ e) := by
  refine ⟨?_, ?_, ?_, ?_⟩
  · intro parse query a h
    by_cases hesc : hasSubB (str "\\_") (processedQuery query) = true
    · simp [_run, _query_options, hesc, tryOptions, h]
    · simp only [Bool.not_eq_true] at hesc
      simp [_run, _query_options, hesc, tryOptions, h]
  · intro parse query e a hesc h1 h2
    simp [_run, _query_options, hesc, tryOptions, h1, h2]
  · intro parse query e1 e2 hesc h1 h2
    simp [_run, _query_options, hesc, tryOptions, h1, h2]
  · intro parse query e hesc h1
    simp [_run, _query_options, hesc, tryOptions, h1]

/-- Witness for C6 at a concrete parser and over-escaped query: the query
fails as given, parses after `\_ → _`, and the substituted variant's
canonical text is returned. -/
theorem run_retry_spec_witness :
    _run
      (fun s => if s = str "SELECT _a FROM t" then ParseResult.ok (str "CANON")
                else ParseResult.error (str "boom"))
      (str "SELECT \\_a FROM t") = str "valid query: " ++ str "CANON" :=
  run_retry_spec.2.1
    (fun s => if s = str "SELECT _a FROM t" then ParseResult.ok (str "CANON")
              else ParseResult.error (str "boom"))
    (str "SELECT \\_a FROM t") (str "boom") (str "CANON")
    (by decide) (by decide) (by decide)
